import Mathlib

/-!
A verification development for a small JSON-utilities library built around a
canonicalizing tree transform.

The library's value domain is the type of JSON-like trees: the JSON primitives
(string, number, boolean, null), the absent marker (JavaScript undefined),
ordered sequences (arrays) and string-keyed mappings (objects).  We embed it as
the inductive type `JsonLikeValue` below.  A JavaScript object is modelled as
its entry list in insertion order; genuine JavaScript objects never carry two
entries with the same key, so theorems that depend on key uniqueness take a
`Nodup` hypothesis on the key list (or the recursive `wellFormed` predicate).

Numbers are modelled as integers: the library performs no numeric computation
of its own, and none of the verified properties depends on float formatting,
so an exact integer carrier keeps the textual codec model faithful on its
whole modelled domain.

The canonicalizer sorts object keys with JavaScript Array.prototype.sort,
which is stable (required since ES2019) and compares strings by code unit when
no comparator is supplied.  We model the sort as Mathlib's stable
`List.insertionSort` and the default string comparison as code-point-wise
lexicographic comparison (`codeUnitCompare`), which agrees with JavaScript on
all strings without astral-plane characters.

The textual codec (JSON.stringify / JSON.parse) is a platform builtin, not
repository source; it is modelled here from its documented behaviour,
restricted to the integer-number carrier: the printer `renderChars` emits
compact JSON with the standard string escapes, and the fuel-indexed
recursive-descent parser `parseValue` accepts the corresponding grammar.
-/

namespace JsonUtils

inductive JsonLikeValue where
  | str (s : String)
  | num (n : Int)
  | bool (b : Bool)
  | null
  | absent
  | arr (elements : List JsonLikeValue)
  | obj (entries : List (String × JsonLikeValue))

open JsonLikeValue

/-- The runtime test `value === undefined` (one node, not recursive). -/
def JsonLikeValue.isAbsent : JsonLikeValue → Bool
  | .absent => true
  | _ => false

/-- A composite value: an array or an object. -/
def JsonLikeValue.isComposite : JsonLikeValue → Bool
  | .arr _ => true
  | .obj _ => true
  | _ => false

/-- The strict-value invariant: the absent marker occurs nowhere in the tree,
at any depth.  A value satisfying `noAbsent` is what the library types call a
`JsonValue`. -/
def JsonLikeValue.noAbsent : JsonLikeValue → Bool
  | .absent => false
  | .arr elements => elements.attach.all fun e => e.1.noAbsent
  | .obj entries => entries.attach.all fun e => e.1.2.noAbsent
  | _ => true
termination_by v => sizeOf v
decreasing_by
  · have := List.sizeOf_lt_of_mem e.2
    simp at this ⊢
    omega
  · obtain ⟨⟨k, v⟩, he⟩ := e
    have := List.sizeOf_lt_of_mem he
    simp at this ⊢
    omega

/-- The model-side well-formedness constraint that every value coming from the
JavaScript runtime satisfies: an object never carries two entries with the
same key (at any depth). -/
def JsonLikeValue.wellFormed : JsonLikeValue → Bool
  | .arr elements => elements.attach.all fun e => e.1.wellFormed
  | .obj entries =>
    decide ((entries.map Prod.fst).Nodup) && entries.attach.all fun e => e.1.2.wellFormed
  | _ => true
termination_by v => sizeOf v
decreasing_by
  · have := List.sizeOf_lt_of_mem e.2
    simp at this ⊢
    omega
  · obtain ⟨⟨k, v⟩, he⟩ := e
    have := List.sizeOf_lt_of_mem he
    simp at this ⊢
    omega

mutual

/-- Structural equality of JSON-like values, the model of deep value equality
(JavaScript === is reference equality on composites, which refines this). -/
def beqJson : JsonLikeValue → JsonLikeValue → Bool
  | .str a, .str b => a == b
  | .num a, .num b => a == b
  | .bool a, .bool b => a == b
  | .null, .null => true
  | .absent, .absent => true
  | .arr as, .arr bs => beqArrJson as bs
  | .obj as, .obj bs => beqObjJson as bs
  | _, _ => false

/-- Element-wise structural equality of arrays. -/
def beqArrJson : List JsonLikeValue → List JsonLikeValue → Bool
  | [], [] => true
  | a :: as, b :: bs => beqJson a b && beqArrJson as bs
  | _, _ => false

/-- Entry-wise structural equality of object entry lists. -/
def beqObjJson : List (String × JsonLikeValue) → List (String × JsonLikeValue) → Bool
  | [], [] => true
  | (k, v) :: as, (k', v') :: bs => k == k' && beqJson v v' && beqObjJson as bs
  | _, _ => false

end

/-- Code-unit-wise (here: code-point-wise) lexicographic three-way comparison
of character lists, the model of JavaScript default string comparison. -/
def codeUnitCompare : List Char → List Char → Int
  | [], [] => 0
  | [], _ :: _ => -1
  | _ :: _, [] => 1
  | c :: cs, d :: ds => if c < d then -1 else if d < c then 1 else codeUnitCompare cs ds

/-- The comparison Array.prototype.sort applies when no comparator is given:
elements compared as strings, smaller first. -/
def defaultCompare (a b : String) : Int :=
  codeUnitCompare a.data b.data

/-- The not-after relation a comparator induces on keys: the sort places `a`
no later than `b` exactly when the comparator does not order `b` first. -/
def keyLE (cmp : String → String → Int) (a b : String) : Prop := cmp a b ≤ 0

instance (cmp : String → String → Int) : DecidableRel (keyLE cmp) := fun a b =>
  inferInstanceAs (Decidable (cmp a b ≤ 0))

/-- The membership consequence of a successful association-list lookup, used
for the canonicalizer's termination argument. -/
theorem lookup_mem {k : String} {v : JsonLikeValue} :
    ∀ {l : List (String × JsonLikeValue)}, l.lookup k = some v → ∃ k', (k', v) ∈ l := by
  intro l h
  induction l with
  | nil => simp at h
  | cons e rest ih =>
    rcases e with ⟨k', v'⟩
    rw [List.lookup_cons] at h
    by_cases hk : k == k'
    · simp [hk] at h
      exact ⟨k', by simp [h]⟩
    · simp [hk] at h
      obtain ⟨k'', hk''⟩ := ih h
      exact ⟨k'', List.mem_cons_of_mem _ hk''⟩

/-- The canonicalizing transform (src/canonicalize.ts).  The absent marker
becomes null; primitives pass through; arrays map the transform over their
elements in order; objects sort their keys (by the supplied comparator, else
by default string comparison), drop keys whose value is absent, and
canonicalize the remaining values.  The JavaScript original reads each value
back out of the object by key after sorting the key list, hence the lookup. -/
def canonicalize (value : JsonLikeValue)
    (compareFn : Option (String → String → Int)) : JsonLikeValue :=
  match value with
  | .absent => .null
  | .null => .null
  | .str s => .str s
  | .num n => .num n
  | .bool b => .bool b
  | .arr elements => .arr (elements.attach.map fun e => canonicalize e.1 compareFn)
  | .obj entries =>
    let sortedKeys :=
      (entries.map Prod.fst).insertionSort (keyLE (compareFn.getD defaultCompare))
    .obj (sortedKeys.filterMap fun k =>
      match h : entries.lookup k with
      | some propertyValue =>
        if propertyValue.isAbsent then none
        else some (k, canonicalize propertyValue compareFn)
      | none => none)
termination_by sizeOf value
decreasing_by
  · have := List.sizeOf_lt_of_mem e.2
    simp at this ⊢
    omega
  · obtain ⟨k', hm⟩ := lookup_mem h
    have h1 : sizeOf (k', propertyValue) < sizeOf entries := List.sizeOf_lt_of_mem hm
    simp at h1 ⊢
    omega

/-- The hexadecimal digit character for `n < 16`, lower case, as emitted by
JSON.stringify in control-character escapes. -/
def hexDigitChar (n : Nat) : Char :=
  if n < 10 then Char.ofNat (48 + n) else Char.ofNat (87 + n)

/-- The JSON escape of one character, per JSON.stringify: quote and backslash
are escaped with a backslash, the five named control characters use their
short escapes, the remaining control characters use a hexadecimal escape, and
every other character stands for itself. -/
def escapeChar (c : Char) : List Char :=
  if c = '"' then ['\\', '"']
  else if c = '\\' then ['\\', '\\']
  else if c = '\x08' then ['\\', 'b']
  else if c = '\x0c' then ['\\', 'f']
  else if c = '\n' then ['\\', 'n']
  else if c = '\r' then ['\\', 'r']
  else if c = '\t' then ['\\', 't']
  else if c.toNat < 32 then
    ['\\', 'u', '0', '0', hexDigitChar (c.toNat / 16), hexDigitChar (c.toNat % 16)]
  else [c]

/-- A rendered string literal: opening quote, escaped characters, closing
quote. -/
def renderString (s : String) : List Char :=
  '"' :: (s.data.flatMap escapeChar ++ ['"'])

/-- The decimal digit characters of `n`, most significant first, in front of
`acc`. -/
def natDigits (n : Nat) (acc : List Char) : List Char :=
  if n < 10 then Char.ofNat (48 + n) :: acc
  else natDigits (n / 10) (Char.ofNat (48 + n % 10) :: acc)
termination_by n
decreasing_by omega

/-- The decimal rendering of an integer: an optional minus sign and digits,
exactly the text JSON.stringify produces for an integral number. -/
def intChars (n : Int) : List Char :=
  if n < 0 then '-' :: natDigits n.natAbs [] else natDigits n.natAbs []

/-- Comma-separated concatenation of already-rendered pieces. -/
def joinComma : List (List Char) → List Char
  | [] => []
  | [x] => x
  | x :: y :: xs => x ++ ',' :: joinComma (y :: xs)

/-- The character stream JSON.stringify produces (compact form, no space
argument).  The absent marker renders as null, which is what JSON.stringify
does with undefined in an array position; undefined object property values
are skipped entirely; the top-level undefined case, where JSON.stringify
returns no string at all, is handled by `JSONstringify` below. -/
def renderChars : JsonLikeValue → List Char
  | .str s => renderString s
  | .num n => intChars n
  | .bool false => ['f', 'a', 'l', 's', 'e']
  | .bool true => ['t', 'r', 'u', 'e']
  | .null => ['n', 'u', 'l', 'l']
  | .absent => ['n', 'u', 'l', 'l']
  | .arr elements =>
    '[' :: (joinComma (elements.attach.map fun e => renderChars e.1) ++ [']'])
  | .obj entries =>
    '{' :: (joinComma (entries.attach.filterMap fun e =>
      if e.1.2.isAbsent then none
      else some (renderString e.1.1 ++ ':' :: renderChars e.1.2)) ++ ['}'])
termination_by v => sizeOf v
decreasing_by
  · have := List.sizeOf_lt_of_mem e.2
    simp at this ⊢
    omega
  · obtain ⟨⟨k, v⟩, he⟩ := e
    have := List.sizeOf_lt_of_mem he
    simp at this ⊢
    omega

/-- JSON.stringify itself: no string at all for a top-level undefined, else
the rendered character stream as a string. -/
def JSONstringify (value : JsonLikeValue) : Option String :=
  if value.isAbsent then none else some (String.mk (renderChars value))

/-- Stable canonical stringification (src/stringify.ts): canonicalize, then
encode with the textual codec.  The canonicalizer argument is the injection
point the source exposes; the source's optional space argument is not
modelled (every verified property uses the compact default).  The fallback
string is never consulted: a canonicalized value is never absent. -/
def createCanonicalJsonString (item : JsonLikeValue)
    (canonicalizer : JsonLikeValue → JsonLikeValue) : String :=
  (JSONstringify (canonicalizer item)).getD ""

/-- `createCanonicalJsonString` with its default arguments, as every caller in
the library uses it: the canonicalizer is `canonicalize` with no comparator.
This is the stable stringifier the specification calls stableStringify. -/
def stableStringify (item : JsonLikeValue) : String :=
  createCanonicalJsonString item (fun v => canonicalize v none)

/-- Semantic equality (src/compare.ts) with the strict-equality test abstracted:
`strictEq` stands for the JavaScript === check, about which the embedding
assumes nothing here.  If the quick check succeeds the function answers true
without stringifying; otherwise it compares canonical strings. -/
def semanticEqualsWith (strictEq : JsonLikeValue → JsonLikeValue → Bool)
    (a b : JsonLikeValue) : Bool :=
  if strictEq a b then true
  else stableStringify a == stableStringify b

/-- Semantic equality with === modelled as structural equality `beqJson`, a
sound over-approximation of reference equality: whenever JavaScript === holds
(same primitive value, both undefined, or the very same composite object),
`beqJson` holds as well. -/
def semanticEquals (a b : JsonLikeValue) : Bool :=
  semanticEqualsWith beqJson a b

/-- The condition of the fast-path shortcut in `semanticEquals`: exactly when
this is true the function returns early without stringifying. -/
def semanticEqualsFastPathHit (a b : JsonLikeValue) : Bool :=
  beqJson a b

/-- The deduplication loop of dedupeBy (src/dedupe.ts): walk the items left to
right with the set of seen keys, keep an item whose key is unseen, silently
skip an item whose key was already seen.  The seen set is modelled as the
list of its elements. -/
def dedupeByLoop {T : Type} (stringifier : T → String) (seen : List String) :
    List T → List T
  | [] => []
  | item :: rest =>
    let key := stringifier item
    if seen.contains key then dedupeByLoop stringifier seen rest
    else item :: dedupeByLoop stringifier (key :: seen) rest

/-- Deduplicate by a caller-supplied string key (src/dedupe.ts). -/
def dedupeBy {T : Type} (items : List T) (stringifier : T → String) : List T :=
  dedupeByLoop stringifier [] items

/-- Deduplicate JSON-like values by semantic content (src/dedupe.ts). -/
def semanticDedupe (items : List JsonLikeValue) : List JsonLikeValue :=
  dedupeBy items stableStringify

/-- The specification's characterization of deduplication, written directly
from its words: keep exactly the first occurrence of each distinct key, in the
original relative order. -/
def firstOccurrences {T : Type} (keyOf : T → String) : List T → List T
  | [] => []
  | x :: xs => x :: firstOccurrences keyOf (xs.filter fun y => keyOf y != keyOf x)
termination_by l => l.length
decreasing_by
  simp only [List.length_cons]
  exact Nat.lt_succ_of_le (List.length_filter_le _ _)

/-- JSON insignificant whitespace. -/
def isJsonWs (c : Char) : Bool :=
  c = ' ' || c = '\t' || c = '\n' || c = '\r'

/-- Drop leading JSON whitespace. -/
def skipWs : List Char → List Char
  | c :: cs => if isJsonWs c then skipWs cs else c :: cs
  | [] => []

/-- The value of a hexadecimal digit character, if it is one. -/
def hexVal (c : Char) : Option Nat :=
  if 48 ≤ c.toNat && c.toNat ≤ 57 then some (c.toNat - 48)
  else if 97 ≤ c.toNat && c.toNat ≤ 102 then some (c.toNat - 87)
  else if 65 ≤ c.toNat && c.toNat ≤ 70 then some (c.toNat - 55)
  else none

/-- The character a single-letter escape stands for, if the letter is one of
the JSON short escapes. -/
def unescapeChar (e : Char) : Option Char :=
  if e = '"' then some '"'
  else if e = '\\' then some '\\'
  else if e = '/' then some '/'
  else if e = 'b' then some '\x08'
  else if e = 'f' then some '\x0c'
  else if e = 'n' then some '\n'
  else if e = 'r' then some '\r'
  else if e = 't' then some '\t'
  else none

/-- Parse the body of a string literal after the opening quote, returning the
content characters and the remainder after the closing quote.  Raw control
characters are rejected, escapes are decoded; a hexadecimal escape must
denote a Unicode scalar value (surrogate escapes are outside the model). -/
def parseStringBody : List Char → Option (List Char × List Char)
  | [] => none
  | c :: cs =>
    if c = '"' then some ([], cs)
    else if c = '\\' then
      match cs with
      | [] => none
      | e :: cs' =>
        if e = 'u' then
          match cs' with
          | d1 :: d2 :: d3 :: d4 :: cs'' =>
            match hexVal d1, hexVal d2, hexVal d3, hexVal d4 with
            | some h1, some h2, some h3, some h4 =>
              let n := ((h1 * 16 + h2) * 16 + h3) * 16 + h4
              if n.isValidChar then
                (parseStringBody cs'').map fun r => (Char.ofNat n :: r.1, r.2)
              else none
            | _, _, _, _ => none
          | _ => none
        else
          match unescapeChar e with
          | some d => (parseStringBody cs').map fun r => (d :: r.1, r.2)
          | none => none
    else if c.toNat < 32 then none
    else (parseStringBody cs).map fun r => (c :: r.1, r.2)
termination_by cs => cs.length
decreasing_by all_goals simp_arith [List.length_cons]

/-- A decimal digit. -/
def isDigitChar (c : Char) : Bool :=
  48 ≤ c.toNat && c.toNat ≤ 57

/-- The number denoted by a run of digit characters. -/
def digitsVal (ds : List Char) : Nat :=
  ds.foldl (fun acc c => acc * 10 + (c.toNat - 48)) 0

/-- Parse a nonempty run of decimal digits greedily. -/
def parseDigits (cs : List Char) : Option (Nat × List Char) :=
  let ds := cs.takeWhile isDigitChar
  if ds.isEmpty then none else some (digitsVal ds, cs.dropWhile isDigitChar)

/-- Parse an integer numeral: an optional minus sign and digits.  Fractional
and exponent forms are outside the integer-number model. -/
def parseNumber (cs : List Char) : Option (Int × List Char) :=
  match cs with
  | '-' :: rest => (parseDigits rest).map fun r => (-(r.1 : Int), r.2)
  | _ => (parseDigits cs).map fun r => ((r.1 : Int), r.2)

mutual

/-- The value parser of the JSON.parse model: fuel-indexed recursive descent
over the character list.  The fuel only bounds recursion depth; `JSONparse`
supplies enough of it that the bound is never the reason an input is
rejected (see the round-trip theorems). -/
def parseValue : Nat → List Char → Option (JsonLikeValue × List Char)
  | 0, _ => none
  | fuel + 1, cs =>
    match skipWs cs with
    | [] => none
    | c :: rest =>
      if c = '"' then
        (parseStringBody rest).map fun r => (.str (String.mk r.1), r.2)
      else if c = '[' then
        match skipWs rest with
        | ']' :: rest' => some (.arr [], rest')
        | inner => (parseArrayItems fuel inner).map fun r => (.arr r.1, r.2)
      else if c = '{' then
        match skipWs rest with
        | '}' :: rest' => some (.obj [], rest')
        | inner => (parseObjectItems fuel inner).map fun r => (.obj r.1, r.2)
      else if c = 't' then
        match rest with
        | 'r' :: 'u' :: 'e' :: rest' => some (.bool true, rest')
        | _ => none
      else if c = 'f' then
        match rest with
        | 'a' :: 'l' :: 's' :: 'e' :: rest' => some (.bool false, rest')
        | _ => none
      else if c = 'n' then
        match rest with
        | 'u' :: 'l' :: 'l' :: rest' => some (.null, rest')
        | _ => none
      else
        (parseNumber (c :: rest)).map fun r => (.num r.1, r.2)

/-- One or more comma-separated array elements followed by the closing
bracket (the empty array is recognized in `parseValue`). -/
def parseArrayItems : Nat → List Char → Option (List JsonLikeValue × List Char)
  | 0, _ => none
  | fuel + 1, cs =>
    match parseValue fuel cs with
    | none => none
    | some (v, rest) =>
      match skipWs rest with
      | ',' :: rest' => (parseArrayItems fuel (skipWs rest')).map fun r => (v :: r.1, r.2)
      | ']' :: rest' => some ([v], rest')
      | _ => none

/-- One or more comma-separated key-value members followed by the closing
brace (the empty object is recognized in `parseValue`). -/
def parseObjectItems : Nat → List Char → Option (List (String × JsonLikeValue) × List Char)
  | 0, _ => none
  | fuel + 1, cs =>
    match skipWs cs with
    | '"' :: rest =>
      match parseStringBody rest with
      | none => none
      | some (keyChars, rest1) =>
        match skipWs rest1 with
        | ':' :: rest2 =>
          match parseValue fuel (skipWs rest2) with
          | none => none
          | some (v, rest3) =>
            match skipWs rest3 with
            | ',' :: rest4 =>
              (parseObjectItems fuel (skipWs rest4)).map fun r =>
                ((String.mk keyChars, v) :: r.1, r.2)
            | '}' :: rest4 => some ([(String.mk keyChars, v)], rest4)
            | _ => none
        | _ => none
    | _ => none

end

/-- The error values the modelled runtime can raise while parsing:
JSON.parse raises SyntaxError; the other case stands for any different
exception a codec could in principle produce, which the library's safe
wrapper must still normalize. -/
inductive JsError where
  | syntaxError (message : String)
  | otherError (message : String)

/-- Whether an error value is a SyntaxError (the instanceof test). -/
def JsError.isSyntaxError : JsError → Bool
  | .syntaxError _ => true
  | .otherError _ => false

/-- JSON.parse: parse one value surrounded by optional whitespace; anything
else is a SyntaxError.  The fuel supplied to the descent grows twice as fast
as any successful parse can consume it. -/
def JSONparse (text : String) : Except JsError JsonLikeValue :=
  match parseValue (2 * text.length + 2) text.data with
  | some (v, rest) =>
    if (skipWs rest).isEmpty then .ok v
    else .error (.syntaxError "Unexpected non-whitespace character after JSON data")
  | none => .error (.syntaxError "Unexpected token in JSON")

/-- The parse facade (src/parse.ts): a thin wrapper around JSON.parse. -/
def parse (jsonString : String) : Except JsError JsonLikeValue :=
  JSONparse jsonString

/-- The tagged result safeParse returns. -/
inductive SafeParseResult where
  | success (data : JsonLikeValue)
  | failure (error : JsError)

/-- Whether a tagged result is the success case. -/
def SafeParseResult.isSuccess : SafeParseResult → Bool
  | .success _ => true
  | .failure _ => false

/-- The safe parse facade (src/parse.ts): catch whatever `parse` raises; a
SyntaxError is returned as the failure payload unchanged, any other error is
wrapped in a fresh SyntaxError so the failure case is uniformly typed. -/
def safeParse (jsonString : String) : SafeParseResult :=
  match parse jsonString with
  | .ok data => .success data
  | .error e =>
    match e with
    | .syntaxError m => .failure (.syntaxError m)
    | .otherError m => .failure (.syntaxError ("Unknown parsing error: " ++ m))

/-- Structural induction over JSON-like values that hands the inductive
hypothesis to every array element and every object entry value. -/
theorem JsonLikeValue.inductionOn {P : JsonLikeValue → Prop}
    (hstr : ∀ s, P (.str s)) (hnum : ∀ n, P (.num n)) (hbool : ∀ b, P (.bool b))
    (hnull : P .null) (habsent : P .absent)
    (harr : ∀ elements, (∀ e ∈ elements, P e) → P (.arr elements))
    (hobj : ∀ entries, (∀ kv ∈ entries, P kv.2) → P (.obj entries)) :
    ∀ v, P v
  | .str s => hstr s
  | .num n => hnum n
  | .bool b => hbool b
  | .null => hnull
  | .absent => habsent
  | .arr elements => harr elements fun e he =>
      JsonLikeValue.inductionOn hstr hnum hbool hnull habsent harr hobj e
  | .obj entries => hobj entries fun kv hkv =>
      JsonLikeValue.inductionOn hstr hnum hbool hnull habsent harr hobj kv.2
termination_by v => sizeOf v
decreasing_by
  · have := List.sizeOf_lt_of_mem he
    simp at this ⊢
    omega
  · obtain ⟨k, v⟩ := kv
    have := List.sizeOf_lt_of_mem hkv
    simp at this ⊢
    omega

theorem canonicalize_absent (cmp : Option (String → String → Int)) :
    canonicalize .absent cmp = .null := by
  simp [canonicalize]

theorem canonicalize_null (cmp : Option (String → String → Int)) :
    canonicalize .null cmp = .null := by
  simp [canonicalize]

theorem canonicalize_str (s : String) (cmp : Option (String → String → Int)) :
    canonicalize (.str s) cmp = .str s := by
  simp [canonicalize]

theorem canonicalize_num (n : Int) (cmp : Option (String → String → Int)) :
    canonicalize (.num n) cmp = .num n := by
  simp [canonicalize]

theorem canonicalize_bool (b : Bool) (cmp : Option (String → String → Int)) :
    canonicalize (.bool b) cmp = .bool b := by
  simp [canonicalize]

theorem canonicalize_arr (elements : List JsonLikeValue)
    (cmp : Option (String → String → Int)) :
    canonicalize (.arr elements) cmp = .arr (elements.map fun e => canonicalize e cmp) := by
  rw [canonicalize]
  congr 1
  exact List.attach_map_val elements fun e => canonicalize e cmp

theorem filterMap_eq_filter_map {A B : Type} (f : A → Option B) (p : A → Bool) (g : A → B)
    (H : ∀ a, f a = if p a then some (g a) else none) :
    ∀ l : List A, l.filterMap f = (l.filter p).map g := by
  intro l
  induction l with
  | nil => simp
  | cons a l ih =>
    rw [List.filterMap_cons, List.filter_cons, H a]
    by_cases hp : p a <;> simp [hp, ih]

/-- The object case of the canonicalizer in processed form: of the sorted key
list, the keys whose value is absent (or, vacuously, missing) are dropped, and
each surviving key is paired with its canonicalized value. -/
theorem canonicalize_obj_eq (entries : List (String × JsonLikeValue))
    (cmp : Option (String → String → Int)) :
    canonicalize (.obj entries) cmp =
      .obj ((((entries.map Prod.fst).insertionSort (keyLE (cmp.getD defaultCompare))).filter
          fun k => !((entries.lookup k).getD .absent).isAbsent).map
        fun k => (k, canonicalize ((entries.lookup k).getD .absent) cmp)) := by
  rw [canonicalize]
  congr 1
  apply filterMap_eq_filter_map
  intro k
  split
  · rename_i pv hlk
    rw [hlk]
    by_cases hab : pv.isAbsent <;> simp [hab]
  · rename_i hlk
    rw [hlk]
    simp [JsonLikeValue.isAbsent]

theorem noAbsent_arr_iff (elements : List JsonLikeValue) :
    noAbsent (.arr elements) = true ↔ ∀ e ∈ elements, noAbsent e = true := by
  rw [noAbsent]
  simp

theorem noAbsent_obj_iff (entries : List (String × JsonLikeValue)) :
    noAbsent (.obj entries) = true ↔ ∀ kv ∈ entries, noAbsent kv.2 = true := by
  rw [noAbsent]
  simp

/-- Canonicalization always produces a strict value: the absent marker is gone
from the whole tree. -/
theorem noAbsent_canonicalize (cmp : Option (String → String → Int)) (v : JsonLikeValue) :
    noAbsent (canonicalize v cmp) = true := by
  induction v using JsonLikeValue.inductionOn with
  | hstr s => rw [canonicalize_str]; simp [noAbsent]
  | hnum n => rw [canonicalize_num]; simp [noAbsent]
  | hbool b => rw [canonicalize_bool]; simp [noAbsent]
  | hnull => rw [canonicalize_null]; simp [noAbsent]
  | habsent => rw [canonicalize_absent]; simp [noAbsent]
  | harr elements ih =>
    rw [canonicalize_arr, noAbsent_arr_iff]
    intro e he
    obtain ⟨x, hx, rfl⟩ := List.mem_map.mp he
    exact ih x hx
  | hobj entries ih =>
    rw [canonicalize_obj_eq, noAbsent_obj_iff]
    intro kv hkv
    obtain ⟨k, hk, rfl⟩ := List.mem_map.mp hkv
    have hp := (List.mem_filter.mp hk).2
    rcases hlk : entries.lookup k with _ | pv
    · rw [hlk] at hp
      simp [JsonLikeValue.isAbsent] at hp
    · rw [hlk] at hp
      obtain ⟨k', hm⟩ := lookup_mem hlk
      have hv := ih (k', pv) hm
      simp only [hlk, Option.getD_some]
      exact hv

theorem codeUnitCompare_neg : ∀ (x y : List Char), codeUnitCompare x y = -codeUnitCompare y x
  | [], [] => by simp [codeUnitCompare]
  | [], _ :: _ => by simp [codeUnitCompare]
  | _ :: _, [] => by simp [codeUnitCompare]
  | a :: as, b :: bs => by
    rw [codeUnitCompare, codeUnitCompare]
    rcases lt_trichotomy a b with h | h | h
    · rw [if_pos h, if_neg (lt_asymm h), if_pos h]
    · subst h
      rw [if_neg (lt_irrefl a), if_neg (lt_irrefl a), if_neg (lt_irrefl a), if_neg (lt_irrefl a)]
      exact codeUnitCompare_neg as bs
    · rw [if_neg (lt_asymm h), if_pos h, if_pos h]
      norm_num

theorem codeUnitCompare_eq_zero_iff : ∀ (x y : List Char), codeUnitCompare x y = 0 ↔ x = y
  | [], [] => by simp [codeUnitCompare]
  | [], _ :: _ => by simp [codeUnitCompare]
  | _ :: _, [] => by simp [codeUnitCompare]
  | a :: as, b :: bs => by
    rw [codeUnitCompare]
    rcases lt_trichotomy a b with h | h | h
    · rw [if_pos h]
      simp [ne_of_lt h]
    · subst h
      rw [if_neg (lt_irrefl a), if_neg (lt_irrefl a)]
      simp [codeUnitCompare_eq_zero_iff as bs]
    · rw [if_neg (lt_asymm h), if_pos h]
      simp [(ne_of_lt h).symm]

theorem codeUnitCompare_trans :
    ∀ (x y z : List Char),
      codeUnitCompare x y ≤ 0 → codeUnitCompare y z ≤ 0 → codeUnitCompare x z ≤ 0
  | [], _, [] => by simp [codeUnitCompare]
  | [], _, _ :: _ => by simp [codeUnitCompare]
  | _ :: _, [], _ => by simp [codeUnitCompare]
  | _ :: _, _ :: _, [] => by
    intro _ h2
    rw [codeUnitCompare] at h2
    omega
  | a :: as, b :: bs, c :: cs => by
    intro h1 h2
    rw [codeUnitCompare] at h1 h2 ⊢
    rcases lt_trichotomy a b with hab | hab | hab
    · rw [if_pos hab] at h1
      rcases lt_trichotomy b c with hbc | hbc | hbc
      · rw [if_pos (lt_trans hab hbc)]
        norm_num
      · subst hbc
        rw [if_pos hab]
        norm_num
      · rw [if_neg (lt_asymm hbc), if_pos hbc] at h2
        omega
    · subst hab
      rw [if_neg (lt_irrefl a), if_neg (lt_irrefl a)] at h1
      rcases lt_trichotomy a c with hac | hac | hac
      · rw [if_pos hac]
        norm_num
      · subst hac
        rw [if_neg (lt_irrefl a), if_neg (lt_irrefl a)] at h2 ⊢
        exact codeUnitCompare_trans as bs cs h1 h2
      · rw [if_neg (lt_asymm hac), if_pos hac] at h2
        omega
    · rw [if_neg (lt_asymm hab), if_pos hab] at h1
      omega

theorem string_eq_of_data_eq {a b : String} (h : a.data = b.data) : a = b := by
  cases a with
  | mk da =>
    cases b with
    | mk db =>
      simp only [String.data] at h
      rw [h]

theorem keyLE_defaultCompare_trans (a b c : String) :
    keyLE defaultCompare a b → keyLE defaultCompare b c → keyLE defaultCompare a c :=
  codeUnitCompare_trans a.data b.data c.data

theorem keyLE_defaultCompare_total (a b : String) :
    keyLE defaultCompare a b ∨ keyLE defaultCompare b a := by
  unfold keyLE defaultCompare
  rw [codeUnitCompare_neg]
  omega

theorem keyLE_defaultCompare_antisymm (a b : String) :
    keyLE defaultCompare a b → keyLE defaultCompare b a → a = b := by
  intro h1 h2
  unfold keyLE defaultCompare at h1 h2
  rw [codeUnitCompare_neg] at h2
  have h0 : codeUnitCompare a.data b.data = 0 := by omega
  exact string_eq_of_data_eq ((codeUnitCompare_eq_zero_iff _ _).mp h0)

/-- A successful lookup finds exactly the looked-up key (String equality tests
are lawful), with its value. -/
theorem lookup_mem_self {k : String} {v : JsonLikeValue} :
    ∀ {l : List (String × JsonLikeValue)}, l.lookup k = some v → (k, v) ∈ l := by
  intro l h
  induction l with
  | nil => simp at h
  | cons e rest ih =>
    rcases e with ⟨k', v'⟩
    rw [List.lookup_cons] at h
    by_cases hk : k = k'
    · subst hk
      simp at h
      simp [h]
    · have hbe : (k == k') = false := by simpa using hk
      rw [hbe] at h
      exact List.mem_cons_of_mem _ (ih h)

/-- With no duplicate keys, membership determines the lookup result. -/
theorem lookup_eq_some_of_mem_nodup {k : String} {v : JsonLikeValue} :
    ∀ {l : List (String × JsonLikeValue)}, (l.map Prod.fst).Nodup → (k, v) ∈ l →
      l.lookup k = some v := by
  intro l hnd hm
  induction l with
  | nil => simp at hm
  | cons e rest ih =>
    rcases e with ⟨k', v'⟩
    rw [List.map_cons, List.nodup_cons] at hnd
    rcases List.mem_cons.mp hm with h | h
    · injection h with hk hv
      subst hk
      subst hv
      simp [List.lookup_cons]
    · have hk : k ≠ k' := by
        rintro rfl
        exact hnd.1 (List.mem_map.mpr ⟨(k, v), h, rfl⟩)
      have hbe : (k == k') = false := by simpa using hk
      rw [List.lookup_cons, hbe]
      exact ih hnd.2 h

theorem lookup_eq_none_iff {k : String} :
    ∀ {l : List (String × JsonLikeValue)}, l.lookup k = none ↔ k ∉ l.map Prod.fst := by
  intro l
  induction l with
  | nil => simp
  | cons e rest ih =>
    rcases e with ⟨k', v'⟩
    rw [List.lookup_cons]
    by_cases hk : k = k'
    · subst hk
      simp
    · have hbe : (k == k') = false := by simpa using hk
      rw [hbe]
      simpa [hk] using ih

/-- Lookup is invariant under permutation of a duplicate-free entry list. -/
theorem perm_lookup_eq {l1 l2 : List (String × JsonLikeValue)} (hp : l1.Perm l2)
    (hnd : (l1.map Prod.fst).Nodup) (k : String) : l1.lookup k = l2.lookup k := by
  rcases h1 : l1.lookup k with _ | v
  · rw [lookup_eq_none_iff] at h1
    have h2 : k ∉ l2.map Prod.fst := fun hm => h1 ((hp.map Prod.fst).mem_iff.mpr hm)
    rw [← lookup_eq_none_iff] at h2
    rw [h2]
  · have hm : (k, v) ∈ l2 := hp.mem_iff.mp (lookup_mem_self h1)
    rw [lookup_eq_some_of_mem_nodup ((hp.map Prod.fst).nodup hnd) hm]

theorem filter_insertionSort_comm {r : String → String → Prop} [DecidableRel r]
    (htrans : ∀ a b c, r a b → r b c → r a c) (htotal : ∀ a b, r a b ∨ r b a)
    (hanti : ∀ a b, r a b → r b a → a = b) (p : String → Bool) (l : List String) :
    (l.insertionSort r).filter p = (l.filter p).insertionSort r := by
  haveI : IsTotal String r := ⟨htotal⟩
  haveI : IsTrans String r := ⟨fun a b c => htrans a b c⟩
  haveI instA : IsAntisymm String r := ⟨hanti⟩
  exact @List.eq_of_perm_of_sorted String r instA _ _
    ((List.Perm.filter p (List.perm_insertionSort r l)).trans
      (List.perm_insertionSort r _).symm)
    (List.Pairwise.filter p (List.sorted_insertionSort r l))
    (List.sorted_insertionSort r _)

/-- With no duplicate keys, the keys surviving the drop-absent filter are the
keys whose looked-up value is not absent. -/
theorem survivingKeys_eq (entries : List (String × JsonLikeValue))
    (hnd : (entries.map Prod.fst).Nodup) :
    ((entries.map Prod.fst).filter
        fun k => !((entries.lookup k).getD .absent).isAbsent) =
      ((entries.filter fun e => !e.2.isAbsent).map Prod.fst) := by
  rw [List.filter_map]
  congr 1
  apply List.filter_congr
  intro e he
  rcases e with ⟨k, v⟩
  have : entries.lookup k = some v := lookup_eq_some_of_mem_nodup hnd he
  simp [this]

/-- C1: for every permissive value and every key-ordering comparator, the
canonicalized result is a strict value: the absent marker occurs nowhere in
its tree, at any depth. -/
theorem canonicalize_returns_strict (v : JsonLikeValue)
    (compareFn : Option (String → String → Int)) :
    noAbsent (canonicalize v compareFn) = true :=
  noAbsent_canonicalize compareFn v

/-- C2: on a mapping with no duplicate keys and a lawful effective comparator
(total, transitive, antisymmetric; the default string comparison is one),
canonicalize drops exactly the keys whose value is absent, sorts the
surviving keys by the effective comparator, and emits them in that sorted
order, each paired with its recursively canonicalized value. -/
theorem canonicalize_mapping_spec (entries : List (String × JsonLikeValue))
    (compareFn : Option (String → String → Int))
    (hnd : (entries.map Prod.fst).Nodup)
    (htrans : ∀ a b c, keyLE (compareFn.getD defaultCompare) a b →
      keyLE (compareFn.getD defaultCompare) b c → keyLE (compareFn.getD defaultCompare) a c)
    (htotal : ∀ a b, keyLE (compareFn.getD defaultCompare) a b ∨
      keyLE (compareFn.getD defaultCompare) b a)
    (hanti : ∀ a b, keyLE (compareFn.getD defaultCompare) a b →
      keyLE (compareFn.getD defaultCompare) b a → a = b) :
    canonicalize (.obj entries) compareFn =
      .obj ((((entries.filter fun e => !e.2.isAbsent).map Prod.fst).insertionSort
          (keyLE (compareFn.getD defaultCompare))).map
        fun k => (k, canonicalize ((entries.lookup k).getD .absent) compareFn)) := by
  rw [canonicalize_obj_eq, filter_insertionSort_comm htrans htotal hanti,
    survivingKeys_eq entries hnd]

/-- Witness for C2 at a concrete mapping with the default comparator: the
absent-valued key is dropped, the others are emitted sorted. -/
theorem canonicalize_mapping_spec_witness :
    canonicalize (.obj [("b", .num 2), ("c", .absent), ("a", .num 1)]) none
      = .obj [("a", .num 1), ("b", .num 2)] := by
  rw [canonicalize_mapping_spec [("b", .num 2), ("c", .absent), ("a", .num 1)] none
    (by decide) keyLE_defaultCompare_trans keyLE_defaultCompare_total
    keyLE_defaultCompare_antisymm]
  simp +decide [canonicalize, JsonLikeValue.isAbsent, List.lookup, keyLE, defaultCompare]

/-- C3: canonicalizing a sequence gives a sequence of the same length whose
elements are the canonicalized originals in the same order (so an absent
element becomes null and a primitive is unchanged), and a top-level absent
input canonicalizes to null. -/
theorem canonicalize_sequence_spec (elements : List JsonLikeValue)
    (compareFn : Option (String → String → Int)) :
    canonicalize (.arr elements) compareFn
        = .arr (elements.map fun e => canonicalize e compareFn)
      ∧ (elements.map fun e => canonicalize e compareFn).length = elements.length
      ∧ canonicalize .absent compareFn = .null :=
  ⟨canonicalize_arr elements compareFn, by simp, canonicalize_absent compareFn⟩

/-- The deduplication loop, related to the first-occurrence characterization:
with keys in `seen` already taken, the loop keeps exactly the first item of
each unseen key. -/
theorem dedupeByLoop_eq_firstOccurrences {T : Type} (f : T → String) :
    ∀ (items : List T) (seen : List String),
      dedupeByLoop f seen items
        = firstOccurrences f (items.filter fun y => !seen.contains (f y)) := by
  intro items
  induction items with
  | nil => intro seen; simp [dedupeByLoop, firstOccurrences]
  | cons x xs ih =>
    intro seen
    rw [dedupeByLoop, List.filter_cons]
    by_cases hs : seen.contains (f x) = true
    · rw [if_pos hs, hs, show (!true) = false from rfl, if_neg (by simp)]
      exact ih seen
    · have hc : seen.contains (f x) = false := by
        cases hcc : seen.contains (f x)
        · rfl
        · exact absurd hcc hs
      rw [if_neg hs, hc, show (!false) = true from rfl, if_pos rfl, firstOccurrences,
        ih (f x :: seen), List.filter_filter]
      have heq : (xs.filter fun y => !((f x :: seen).contains (f y)))
          = xs.filter fun y => (f y != f x) && !seen.contains (f y) := by
        apply List.filter_congr
        intro y hy
        by_cases hxy : f y = f x <;> simp [hxy, Bool.and_comm]
      rw [heq]

theorem dedupeByLoop_sublist {T : Type} (f : T → String) :
    ∀ (items : List T) (seen : List String), (dedupeByLoop f seen items).Sublist items := by
  intro items
  induction items with
  | nil => intro seen; simp [dedupeByLoop]
  | cons x xs ih =>
    intro seen
    rw [dedupeByLoop]
    by_cases hs : seen.contains (f x)
    · rw [if_pos hs]
      exact (ih seen).cons x
    · rw [if_neg hs]
      exact (ih (f x :: seen)).cons₂ x

/-- C8: dedupeBy returns exactly the first occurrence of each distinct key in
original relative order (the first-occurrence characterization written from
the specification), and its output is a subsequence of the input; kept
elements are the input items themselves and nothing is ever raised, the
function being total. -/
theorem dedupeBy_spec {T : Type} (items : List T) (stringifier : T → String) :
    dedupeBy items stringifier = firstOccurrences stringifier items
      ∧ (dedupeBy items stringifier).Sublist items := by
  constructor
  · rw [dedupeBy, dedupeByLoop_eq_firstOccurrences]
    congr 1
    simp
  · exact dedupeByLoop_sublist stringifier items []

theorem beqArrJson_eq_of (as : List JsonLikeValue)
    (ih : ∀ a ∈ as, ∀ b, beqJson a b = true → a = b) :
    ∀ bs, beqArrJson as bs = true → as = bs := by
  induction as with
  | nil =>
    intro bs h
    cases bs with
    | nil => rfl
    | cons b bs => simp [beqArrJson] at h
  | cons a as ihl =>
    intro bs h
    cases bs with
    | nil => simp [beqArrJson] at h
    | cons b bs =>
      rw [beqArrJson] at h
      simp only [Bool.and_eq_true] at h
      rw [ih a (by simp) b h.1, ihl (fun x hx => ih x (by simp [hx])) bs h.2]

theorem beqObjJson_eq_of (as : List (String × JsonLikeValue))
    (ih : ∀ kv ∈ as, ∀ b, beqJson kv.2 b = true → kv.2 = b) :
    ∀ bs, beqObjJson as bs = true → as = bs := by
  induction as with
  | nil =>
    intro bs h
    cases bs with
    | nil => rfl
    | cons b bs => simp [beqObjJson] at h
  | cons a as ihl =>
    intro bs h
    cases bs with
    | nil => simp [beqObjJson] at h
    | cons b bs =>
      rcases a with ⟨k, v⟩
      rcases b with ⟨k', v'⟩
      rw [beqObjJson] at h
      simp only [Bool.and_eq_true, beq_iff_eq] at h
      have hv : v = v' := ih (k, v) (by simp) v' h.1.2
      rw [h.1.1, hv, ihl (fun x hx => ih x (by simp [hx])) bs h.2]

/-- Structural equality is sound for propositional equality (it is in fact
also complete, but only soundness is needed: JavaScript === refines it). -/
theorem beqJson_eq (a : JsonLikeValue) : ∀ b, beqJson a b = true → a = b := by
  induction a using JsonLikeValue.inductionOn with
  | hstr s => intro b h; cases b <;> simp_all [beqJson]
  | hnum n => intro b h; cases b <;> simp_all [beqJson]
  | hbool x => intro b h; cases b <;> simp_all [beqJson]
  | hnull => intro b h; cases b <;> simp_all [beqJson]
  | habsent => intro b h; cases b <;> simp_all [beqJson]
  | harr as ih =>
    intro b h
    cases b with
    | arr bs =>
      rw [beqJson] at h
      rw [beqArrJson_eq_of as ih bs h]
    | str s => simp [beqJson] at h
    | num n => simp [beqJson] at h
    | bool x => simp [beqJson] at h
    | null => simp [beqJson] at h
    | absent => simp [beqJson] at h
    | obj entries => simp [beqJson] at h
  | hobj entries ih =>
    intro b h
    cases b with
    | obj bs =>
      rw [beqJson] at h
      rw [beqObjJson_eq_of entries ih bs h]
    | str s => simp [beqJson] at h
    | num n => simp [beqJson] at h
    | bool x => simp [beqJson] at h
    | null => simp [beqJson] at h
    | absent => simp [beqJson] at h
    | arr as => simp [beqJson] at h

/-- C6: for every sound fast-path test (one that answers true only on values
that are equal, as the JavaScript strict-equality check is) semanticEquals
agrees with comparing the two canonical stringifications, and in particular
the library's semanticEquals does: the short circuit never changes the
outcome versus always stringifying. -/
theorem semanticEquals_eq_stringify_eq
    (strictEq : JsonLikeValue → JsonLikeValue → Bool)
    (hsound : ∀ a b, strictEq a b = true → a = b) (a b : JsonLikeValue) :
    semanticEqualsWith strictEq a b = (stableStringify a == stableStringify b)
      ∧ semanticEquals a b = (stableStringify a == stableStringify b) := by
  constructor
  · rw [semanticEqualsWith]
    by_cases h : strictEq a b = true
    · rw [if_pos h, hsound a b h]
      simp
    · rw [if_neg h]
  · rw [semanticEquals, semanticEqualsWith]
    by_cases h : beqJson a b = true
    · rw [if_pos h, beqJson_eq a b h]
      simp
    · rw [if_neg h]

/-- Witness for C6: the sound test discharged with structural equality, at a
concrete pair that the fast path rejects but stringification equates. -/
theorem semanticEquals_eq_stringify_eq_witness :
    (semanticEqualsWith beqJson (.arr [.num 1, .absent]) (.arr [.num 1, .null])
        = (stableStringify (.arr [.num 1, .absent])
            == stableStringify (.arr [.num 1, .null]))
      ∧ semanticEquals (.arr [.num 1, .absent]) (.arr [.num 1, .null])
        = (stableStringify (.arr [.num 1, .absent])
            == stableStringify (.arr [.num 1, .null])))
      ∧ semanticEquals (.arr [.num 1, .absent]) (.arr [.num 1, .null]) = true :=
  ⟨semanticEquals_eq_stringify_eq beqJson (fun a b => beqJson_eq a b) _ _, by
    simp +decide [semanticEquals, semanticEqualsWith, beqJson, beqArrJson, stableStringify,
      createCanonicalJsonString, canonicalize, JSONstringify, JsonLikeValue.isAbsent,
      renderChars, intChars, natDigits, joinComma]⟩

/-- C7, counterexample: it is not the case that the shortcut check never fires
on composite inputs: on a pair of (identical) sequences the fast-path
condition holds, so semanticEquals returns early without stringifying.  In
the JavaScript original this is the call semanticEquals(x, x) with x an
array: x === x succeeds. -/
theorem semanticEquals_fast_path_counterexample :
    ¬ (∀ a b : JsonLikeValue,
        (JsonLikeValue.isComposite a || JsonLikeValue.isComposite b) = true →
        semanticEqualsFastPathHit a b = false) := by
  intro hclaim
  have h := hclaim (.arr [.num 1]) (.arr [.num 1]) (by rfl)
  rw [semanticEqualsFastPathHit] at h
  simp [beqJson, beqArrJson] at h

/-- C7, amended: on pairs with a composite side the fast path can fire, but
only when the two inputs are the same value (in JavaScript: the same
reference), and the result always equals the comparison of the two canonical
stringifications, so the shortcut never changes the outcome. -/
theorem semanticEquals_composite_spec (a b : JsonLikeValue)
    (hcomp : (JsonLikeValue.isComposite a || JsonLikeValue.isComposite b) = true) :
    semanticEquals a b = (stableStringify a == stableStringify b)
      ∧ (semanticEqualsFastPathHit a b = true → a = b) := by
  constructor
  · rw [semanticEquals, semanticEqualsWith]
    by_cases h : beqJson a b = true
    · rw [if_pos h, beqJson_eq a b h]
      simp
    · rw [if_neg h]
  · intro h
    exact beqJson_eq a b (by rw [semanticEqualsFastPathHit] at h; exact h)

/-- Witness for C7's amended statement at a concrete pair of sequences. -/
theorem semanticEquals_composite_spec_witness :
    (JsonLikeValue.isComposite (.arr [.num 1])
        || JsonLikeValue.isComposite (.arr [.num 2])) = true
      ∧ (semanticEquals (.arr [.num 1]) (.arr [.num 2])
            = (stableStringify (.arr [.num 1]) == stableStringify (.arr [.num 2]))
          ∧ (semanticEqualsFastPathHit (.arr [.num 1]) (.arr [.num 2]) = true
              → (JsonLikeValue.arr [.num 1]) = .arr [.num 2])) :=
  ⟨rfl, semanticEquals_composite_spec (.arr [.num 1]) (.arr [.num 2]) rfl⟩

/-- C5: stable stringification does not depend on the insertion order of
mapping entries: two duplicate-free mappings holding the same key-value pairs
stringify identically. -/
theorem stableStringify_key_order_invariant (l1 l2 : List (String × JsonLikeValue))
    (hperm : l1.Perm l2) (hnd : (l1.map Prod.fst).Nodup) :
    stableStringify (.obj l1) = stableStringify (.obj l2) := by
  suffices h : canonicalize (.obj l1) none = canonicalize (.obj l2) none by
    rw [stableStringify, stableStringify, createCanonicalJsonString,
      createCanonicalJsonString, h]
  rw [canonicalize_obj_eq, canonicalize_obj_eq]
  simp only [Option.getD_none]
  have hlk : ∀ k, l1.lookup k = l2.lookup k := perm_lookup_eq hperm hnd
  have hp : (fun k => !((l1.lookup k).getD .absent).isAbsent)
      = fun k => !((l2.lookup k).getD .absent).isAbsent := by
    funext k
    rw [hlk k]
  have hg : (fun k => (k, canonicalize ((l1.lookup k).getD .absent) none))
      = fun k => (k, canonicalize ((l2.lookup k).getD .absent) none) := by
    funext k
    rw [hlk k]
  rw [hp, hg]
  haveI : IsTotal String (keyLE defaultCompare) := ⟨keyLE_defaultCompare_total⟩
  haveI : IsTrans String (keyLE defaultCompare) :=
    ⟨fun a b c => keyLE_defaultCompare_trans a b c⟩
  haveI instA : IsAntisymm String (keyLE defaultCompare) := ⟨keyLE_defaultCompare_antisymm⟩
  have hA : (l1.map Prod.fst).insertionSort (keyLE defaultCompare)
      = (l2.map Prod.fst).insertionSort (keyLE defaultCompare) :=
    @List.eq_of_perm_of_sorted String (keyLE defaultCompare) instA _ _
      ((List.perm_insertionSort _ _).trans
        ((hperm.map Prod.fst).trans (List.perm_insertionSort _ _).symm))
      (List.sorted_insertionSort _ _) (List.sorted_insertionSort _ _)
  rw [hA]

/-- Witness for C5 at a concrete two-entry mapping and its swap. -/
theorem stableStringify_key_order_invariant_witness :
    stableStringify (.obj [("b", .num 2), ("a", .num 1)])
      = stableStringify (.obj [("a", .num 1), ("b", .num 2)]) :=
  stableStringify_key_order_invariant _ _
    (List.Perm.swap ("a", JsonLikeValue.num 1) ("b", JsonLikeValue.num 2) []) (by decide)

theorem isAbsent_eq_false_of_noAbsent (v : JsonLikeValue) (h : noAbsent v = true) :
    JsonLikeValue.isAbsent v = false := by
  cases v <;> simp_all [JsonLikeValue.isAbsent, noAbsent]

theorem wellFormed_arr_iff (elements : List JsonLikeValue) :
    wellFormed (.arr elements) = true ↔ ∀ e ∈ elements, wellFormed e = true := by
  rw [wellFormed]
  simp

theorem wellFormed_obj_iff (entries : List (String × JsonLikeValue)) :
    wellFormed (.obj entries) = true ↔
      (entries.map Prod.fst).Nodup ∧ ∀ kv ∈ entries, wellFormed kv.2 = true := by
  rw [wellFormed]
  simp

/-- A mapping whose keys are already sorted and duplicate-free and whose
values are strict fixed points of canonicalization is itself a fixed point. -/
theorem canonicalize_obj_fixed (compareFn : Option (String → String → Int))
    (M : List (String × JsonLikeValue))
    (hnd : (M.map Prod.fst).Nodup)
    (hsorted : List.Sorted (keyLE (compareFn.getD defaultCompare)) (M.map Prod.fst))
    (hstrict : ∀ kv ∈ M, noAbsent kv.2 = true)
    (hfix : ∀ kv ∈ M, canonicalize kv.2 compareFn = kv.2) :
    canonicalize (.obj M) compareFn = .obj M := by
  rw [canonicalize_obj_eq, List.Sorted.insertionSort_eq hsorted]
  have hfilter : ((M.map Prod.fst).filter
      fun k => !((M.lookup k).getD .absent).isAbsent) = M.map Prod.fst := by
    rw [List.filter_eq_self]
    intro k hk
    obtain ⟨kv, hkv, rfl⟩ := List.mem_map.mp hk
    rw [lookup_eq_some_of_mem_nodup hnd (show (kv.1, kv.2) ∈ M by simpa using hkv)]
    simp [isAbsent_eq_false_of_noAbsent kv.2 (hstrict kv hkv)]
  rw [hfilter, List.map_map]
  have hmap : M.map ((fun k => (k, canonicalize ((M.lookup k).getD .absent) compareFn))
      ∘ Prod.fst) = M.map id := by
    apply List.map_congr_left
    intro kv hkv
    have hl : M.lookup kv.1 = some kv.2 :=
      lookup_eq_some_of_mem_nodup hnd (show (kv.1, kv.2) ∈ M by simpa using hkv)
    simp only [Function.comp_apply, hl, Option.getD_some, hfix kv hkv, id_eq, Prod.mk.eta]
  rw [hmap, List.map_id]

/-- C4: canonicalization is idempotent.  The input is well-formed (objects
never repeat a key, as JavaScript guarantees) and the effective comparator is
transitive and total (the specification requires a total ordering; the
default comparison is proved to be one): then canonicalizing twice equals
canonicalizing once. -/
theorem canonicalize_idempotent (v : JsonLikeValue)
    (compareFn : Option (String → String → Int))
    (hwf : wellFormed v = true)
    (htrans : ∀ a b c, keyLE (compareFn.getD defaultCompare) a b →
      keyLE (compareFn.getD defaultCompare) b c → keyLE (compareFn.getD defaultCompare) a c)
    (htotal : ∀ a b, keyLE (compareFn.getD defaultCompare) a b ∨
      keyLE (compareFn.getD defaultCompare) b a) :
    canonicalize (canonicalize v compareFn) compareFn = canonicalize v compareFn := by
  haveI : IsTotal String (keyLE (compareFn.getD defaultCompare)) := ⟨htotal⟩
  haveI : IsTrans String (keyLE (compareFn.getD defaultCompare)) := ⟨fun a b c => htrans a b c⟩
  revert hwf
  induction v using JsonLikeValue.inductionOn with
  | hstr s => intro _; rw [canonicalize_str, canonicalize_str]
  | hnum n => intro _; rw [canonicalize_num, canonicalize_num]
  | hbool b => intro _; rw [canonicalize_bool, canonicalize_bool]
  | hnull => intro _; rw [canonicalize_null, canonicalize_null]
  | habsent => intro _; rw [canonicalize_absent, canonicalize_null]
  | harr elements ih =>
    intro hwf
    rw [canonicalize_arr, canonicalize_arr, List.map_map]
    congr 1
    apply List.map_congr_left
    intro e he
    exact ih e he ((wellFormed_arr_iff elements).mp hwf e he)
  | hobj entries ih =>
    intro hwf
    obtain ⟨hnd, hsub⟩ := (wellFormed_obj_iff entries).mp hwf
    rw [canonicalize_obj_eq]
    set S := (entries.map Prod.fst).insertionSort (keyLE (compareFn.getD defaultCompare))
      with hS
    set p : String → Bool := fun k => !((entries.lookup k).getD .absent).isAbsent with hp
    set g : String → String × JsonLikeValue :=
      fun k => (k, canonicalize ((entries.lookup k).getD .absent) compareFn) with hg
    have hkeys : ((S.filter p).map g).map Prod.fst = S.filter p := by
      rw [List.map_map]
      have : (Prod.fst ∘ g) = id := by
        funext k
        rw [hg]
        rfl
      rw [this, List.map_id]
    apply canonicalize_obj_fixed
    · rw [hkeys]
      exact ((List.perm_insertionSort _ _).symm.nodup hnd).filter p
    · rw [hkeys]
      exact List.Pairwise.filter p (List.sorted_insertionSort _ _)
    · intro kv hkv
      obtain ⟨k, hk, rfl⟩ := List.mem_map.mp hkv
      exact noAbsent_canonicalize compareFn _
    · intro kv hkv
      obtain ⟨k, hk, rfl⟩ := List.mem_map.mp hkv
      have hpk := (List.mem_filter.mp hk).2
      rcases hlk : entries.lookup k with _ | pv
      · simp only [hp, hlk, Option.getD_none] at hpk
        simp [JsonLikeValue.isAbsent] at hpk
      · obtain ⟨k', hm⟩ := lookup_mem hlk
        have hfix2 := ih (k', pv) hm (hsub (k', pv) hm)
        rw [hg]
        simp only [hlk, Option.getD_some]
        simpa using hfix2

/-- Witness for C4 at a concrete nested value with the default comparator. -/
theorem canonicalize_idempotent_witness :
    canonicalize (canonicalize
        (.obj [("b", .arr [.absent, .num 1]), ("a", .absent)]) none) none
      = canonicalize (.obj [("b", .arr [.absent, .num 1]), ("a", .absent)]) none :=
  canonicalize_idempotent (.obj [("b", .arr [.absent, .num 1]), ("a", .absent)]) none
    (by simp +decide [wellFormed])
    keyLE_defaultCompare_trans keyLE_defaultCompare_total

theorem digitChar_toNat (k : Nat) (h : k < 10) : (Char.ofNat (48 + k)).toNat = 48 + k := by
  interval_cases k <;> decide

theorem digitChar_isDigit (k : Nat) (h : k < 10) : isDigitChar (Char.ofNat (48 + k)) = true := by
  interval_cases k <;> decide

theorem natDigits_lt (n : Nat) (h : n < 10) (acc : List Char) :
    natDigits n acc = Char.ofNat (48 + n) :: acc := by
  rw [natDigits]
  simp [h]

theorem natDigits_ge (n : Nat) (h : ¬n < 10) (acc : List Char) :
    natDigits n acc = natDigits (n / 10) (Char.ofNat (48 + n % 10) :: acc) := by
  rw [natDigits]
  simp [h]

theorem natDigits_append (n : Nat) : ∀ acc : List Char, natDigits n acc = natDigits n [] ++ acc := by
  induction n using Nat.strongRecOn with
  | ind n ih =>
    intro acc
    by_cases h : n < 10
    · rw [natDigits_lt n h acc, natDigits_lt n h []]
      simp
    · rw [natDigits_ge n h acc, natDigits_ge n h [],
        ih (n / 10) (by omega) (Char.ofNat (48 + n % 10) :: acc),
        ih (n / 10) (by omega) [Char.ofNat (48 + n % 10)]]
      simp

theorem natDigits_unfold (n : Nat) :
    natDigits n [] = (if n < 10 then [] else natDigits (n / 10) [])
      ++ [Char.ofNat (48 + n % 10)] := by
  by_cases h : n < 10
  · rw [natDigits_lt n h [], if_pos h, Nat.mod_eq_of_lt h]
    simp
  · rw [natDigits_ge n h [], if_neg h]
    exact natDigits_append (n / 10) [_]

theorem natDigits_ne_nil (n : Nat) : natDigits n [] ≠ [] := by
  rw [natDigits_unfold]
  simp

theorem natDigits_all_digits (n : Nat) : ∀ c ∈ natDigits n [], isDigitChar c = true := by
  induction n using Nat.strongRecOn with
  | ind n ih =>
    rw [natDigits_unfold]
    intro c hc
    rcases List.mem_append.mp hc with h | h
    · by_cases h10 : n < 10
      · simp [h10] at h
      · exact ih (n / 10) (by omega) c (by simpa [h10] using h)
    · rw [List.mem_singleton] at h
      subst h
      exact digitChar_isDigit (n % 10) (Nat.mod_lt _ (by omega))

theorem digitsVal_natDigits (n : Nat) : digitsVal (natDigits n []) = n := by
  induction n using Nat.strongRecOn with
  | ind n ih =>
    rw [natDigits_unfold]
    by_cases h : n < 10
    · simp only [if_pos h, List.nil_append]
      rw [digitsVal, List.foldl_cons, List.foldl_nil, digitChar_toNat (n % 10)
        (Nat.mod_lt _ (by omega))]
      omega
    · simp only [if_neg h]
      rw [digitsVal, List.foldl_append, List.foldl_cons, List.foldl_nil]
      have hrec := ih (n / 10) (by omega)
      rw [digitsVal] at hrec
      rw [hrec, digitChar_toNat (n % 10) (Nat.mod_lt _ (by omega))]
      omega

theorem takeWhile_digits_append {ds rest : List Char} (hds : ∀ c ∈ ds, isDigitChar c = true)
    (hrest : ∀ c, rest.head? = some c → isDigitChar c = false) :
    ds.takeWhile isDigitChar ++ rest.takeWhile isDigitChar = ds
      ∧ (ds ++ rest).takeWhile isDigitChar = ds
      ∧ (ds ++ rest).dropWhile isDigitChar = rest := by
  have hstop : rest.takeWhile isDigitChar = [] ∧ rest.dropWhile isDigitChar = rest := by
    cases rest with
    | nil => simp
    | cons c t =>
      have := hrest c rfl
      simp [List.takeWhile_cons, List.dropWhile_cons, this]
  refine ⟨?_, ?_, ?_⟩
  · rw [hstop.1, List.append_nil]
    induction ds with
    | nil => simp
    | cons d t ih =>
      have hd := hds d (by simp)
      rw [List.takeWhile_cons, hd]
      simp only [ite_true]
      rw [ih (fun c hc => hds c (by simp [hc]))]
  · induction ds with
    | nil => exact hstop.1
    | cons d t ih =>
      have hd := hds d (by simp)
      rw [List.cons_append, List.takeWhile_cons, hd]
      simp only [ite_true]
      rw [ih (fun c hc => hds c (by simp [hc]))]
  · induction ds with
    | nil => exact hstop.2
    | cons d t ih =>
      have hd := hds d (by simp)
      rw [List.cons_append, List.dropWhile_cons, hd]
      simp only [ite_true]
      rw [ih (fun c hc => hds c (by simp [hc]))]

theorem parseDigits_natDigits (n : Nat) (rest : List Char)
    (hrest : ∀ c, rest.head? = some c → isDigitChar c = false) :
    parseDigits (natDigits n [] ++ rest) = some (n, rest) := by
  obtain ⟨_, htake, hdrop⟩ := takeWhile_digits_append (natDigits_all_digits n) hrest
  rw [parseDigits, htake, hdrop]
  simp [natDigits_ne_nil n, digitsVal_natDigits n]

theorem natDigits_cons (n : Nat) :
    ∃ c t, natDigits n [] = c :: t ∧ isDigitChar c = true := by
  rcases h : natDigits n [] with _ | ⟨c, t⟩
  · exact absurd h (natDigits_ne_nil n)
  · exact ⟨c, t, rfl, natDigits_all_digits n c (h ▸ List.mem_cons_self c t)⟩

theorem isDigitChar_ne_minus {c : Char} (h : isDigitChar c = true) : c ≠ '-' := by
  rintro rfl
  simp [isDigitChar] at h

/-- Parsing a rendered integer recovers it whenever the remainder cannot
extend the digit run. -/
theorem parseNumber_intChars (n : Int) (rest : List Char)
    (hrest : ∀ c, rest.head? = some c → isDigitChar c = false) :
    parseNumber (intChars n ++ rest) = some (n, rest) := by
  rw [intChars]
  by_cases hneg : n < 0
  · rw [if_pos hneg, List.cons_append, parseNumber, parseDigits_natDigits n.natAbs rest hrest]
    simp only [Option.map_some']
    congr 2
    omega
  · rw [if_neg hneg]
    obtain ⟨c, t, hct, hc⟩ := natDigits_cons n.natAbs
    rw [hct, List.cons_append, parseNumber.eq_def]
    have hcm := isDigitChar_ne_minus hc
    split
    · rename_i heq
      rw [List.cons.injEq] at heq
      exact absurd heq.1 hcm
    · rw [← List.cons_append, ← hct, parseDigits_natDigits n.natAbs rest hrest]
      simp only [Option.map_some']
      congr 2
      omega

theorem hexVal_hexDigitChar (d : Nat) (h : d < 16) : hexVal (hexDigitChar d) = some d := by
  interval_cases d <;> decide

/-- Parsing one escaped character inside a string body undoes the escaping. -/
theorem parseStringBody_escape (c : Char) (rest : List Char) :
    parseStringBody (escapeChar c ++ rest)
      = (parseStringBody rest).map fun r => (c :: r.1, r.2) := by
  rw [escapeChar]
  by_cases h1 : c = '"'
  · subst h1
    simp only [if_pos rfl, List.cons_append, List.nil_append]
    rw [parseStringBody.eq_def]
    simp +decide [unescapeChar]
  rw [if_neg h1]
  by_cases h2 : c = '\\'
  · subst h2
    simp only [if_pos rfl, List.cons_append, List.nil_append]
    rw [parseStringBody.eq_def]
    simp +decide [unescapeChar]
  rw [if_neg h2]
  by_cases h3 : c = '\x08'
  · subst h3
    simp only [if_pos rfl, List.cons_append, List.nil_append]
    rw [parseStringBody.eq_def]
    simp +decide [unescapeChar]
  rw [if_neg h3]
  by_cases h4 : c = '\x0c'
  · subst h4
    simp only [if_pos rfl, List.cons_append, List.nil_append]
    rw [parseStringBody.eq_def]
    simp +decide [unescapeChar]
  rw [if_neg h4]
  by_cases h5 : c = '\n'
  · subst h5
    simp only [if_pos rfl, List.cons_append, List.nil_append]
    rw [parseStringBody.eq_def]
    simp +decide [unescapeChar]
  rw [if_neg h5]
  by_cases h6 : c = '\r'
  · subst h6
    simp only [if_pos rfl, List.cons_append, List.nil_append]
    rw [parseStringBody.eq_def]
    simp +decide [unescapeChar]
  rw [if_neg h6]
  by_cases h7 : c = '\t'
  · subst h7
    simp only [if_pos rfl, List.cons_append, List.nil_append]
    rw [parseStringBody.eq_def]
    simp +decide [unescapeChar]
  rw [if_neg h7]
  by_cases h8 : c.toNat < 32
  · rw [if_pos h8]
    have hhi := hexVal_hexDigitChar (c.toNat / 16) (by omega)
    have hlo := hexVal_hexDigitChar (c.toNat % 16) (by omega)
    have hn : ((0 * 16 + 0) * 16 + c.toNat / 16) * 16 + c.toNat % 16 = c.toNat := by omega
    have hn2 : c.toNat / 16 * 16 + c.toNat % 16 = c.toNat := by omega
    have hv : Nat.isValidChar c.toNat := Or.inl (by omega)
    simp only [List.cons_append, List.nil_append]
    rw [parseStringBody.eq_def]
    simp +decide [show hexVal '0' = some 0 from by decide, hhi, hlo, hn, hn2, hv]
  · rw [if_neg h8]
    simp only [List.cons_append, List.nil_append]
    rw [parseStringBody.eq_def]
    simp [h1, h2, h8]

/-- Parsing an escaped character run stops exactly at the closing quote. -/
theorem parseStringBody_flatMap (l : List Char) : ∀ rest : List Char,
    parseStringBody (l.flatMap escapeChar ++ '"' :: rest) = some (l, rest) := by
  induction l with
  | nil =>
    intro rest
    rw [List.flatMap_nil, List.nil_append, parseStringBody.eq_def]
    simp
  | cons c l ih =>
    intro rest
    rw [List.flatMap_cons, List.append_assoc, parseStringBody_escape c, ih rest]
    rfl

theorem string_mk_data (s : String) : String.mk s.data = s := by
  cases s
  rfl

theorem renderChars_null : renderChars .null = ['n', 'u', 'l', 'l'] := by
  rw [renderChars]

theorem renderChars_absent : renderChars .absent = ['n', 'u', 'l', 'l'] := by
  rw [renderChars]

theorem renderChars_true : renderChars (.bool true) = ['t', 'r', 'u', 'e'] := by
  rw [renderChars]

theorem renderChars_false : renderChars (.bool false) = ['f', 'a', 'l', 's', 'e'] := by
  rw [renderChars]

theorem renderChars_num (n : Int) : renderChars (.num n) = intChars n := by
  rw [renderChars]

theorem renderChars_str (s : String) : renderChars (.str s) = renderString s := by
  rw [renderChars]

theorem renderChars_arr (elements : List JsonLikeValue) :
    renderChars (.arr elements)
      = '[' :: (joinComma (elements.map renderChars) ++ [']']) := by
  rw [renderChars]
  congr 3
  exact List.attach_map_val elements renderChars

theorem renderChars_obj (entries : List (String × JsonLikeValue)) :
    renderChars (.obj entries)
      = '{' :: (joinComma (entries.filterMap fun kv =>
          if kv.2.isAbsent then none
          else some (renderString kv.1 ++ ':' :: renderChars kv.2)) ++ ['}']) := by
  rw [renderChars]
  congr 3
  conv_rhs => rw [← List.attach_map_subtype_val entries]
  rw [List.filterMap_map]
  rfl

/-- On a strict object every entry renders, so the filterMap is a map. -/
theorem renderChars_obj_strict (entries : List (String × JsonLikeValue))
    (h : ∀ kv ∈ entries, JsonLikeValue.isAbsent kv.2 = false) :
    renderChars (.obj entries)
      = '{' :: (joinComma (entries.map fun kv =>
          renderString kv.1 ++ ':' :: renderChars kv.2) ++ ['}']) := by
  rw [renderChars_obj]
  congr 3
  rw [filterMap_eq_filter_map _ (fun kv => !kv.2.isAbsent)
    (fun kv => renderString kv.1 ++ ':' :: renderChars kv.2) ?_ entries]
  · rw [List.filter_eq_self.mpr fun kv hkv => by simp [h kv hkv]]
  · intro kv
    by_cases hab : JsonLikeValue.isAbsent kv.2 <;> simp [hab]

theorem isDigitChar_bounds {c : Char} (h : isDigitChar c = true) :
    48 ≤ c.toNat ∧ c.toNat ≤ 57 := by
  simpa [isDigitChar] using h

theorem isDigitChar_not_ws {c : Char} (h : isDigitChar c = true) : isJsonWs c = false := by
  have hb := isDigitChar_bounds h
  cases hws : isJsonWs c
  · rfl
  · exfalso
    rcases (by simpa [isJsonWs] using hws :
        ((c = ' ' ∨ c = '\t') ∨ c = '\n') ∨ c = '\r') with ((rfl | rfl) | rfl) | rfl
      <;> exact absurd hb (by decide)

theorem isDigitChar_ne {c : Char} (h : isDigitChar c = true) :
    c ≠ ']' ∧ c ≠ '}' ∧ c ≠ ',' ∧ c ≠ '"' ∧ c ≠ '[' ∧ c ≠ '{'
      ∧ c ≠ 't' ∧ c ≠ 'f' ∧ c ≠ 'n' := by
  have hb := isDigitChar_bounds h
  refine ⟨?_, ?_, ?_, ?_, ?_, ?_, ?_, ?_, ?_⟩ <;>
    (rintro rfl; exact absurd hb (by decide))

/-- Every rendered value begins with a character that is not whitespace and
closes neither an array nor an object. -/
theorem renderChars_head (v : JsonLikeValue) :
    ∃ c t, renderChars v = c :: t ∧ isJsonWs c = false ∧ c ≠ ']' ∧ c ≠ '}' := by
  cases v with
  | str s => exact ⟨'"', _, by rw [renderChars_str, renderString], by decide, by decide, by decide⟩
  | null => exact ⟨'n', _, renderChars_null, by decide, by decide, by decide⟩
  | absent => exact ⟨'n', _, renderChars_absent, by decide, by decide, by decide⟩
  | bool b =>
    cases b with
    | true => exact ⟨'t', _, renderChars_true, by decide, by decide, by decide⟩
    | false => exact ⟨'f', _, renderChars_false, by decide, by decide, by decide⟩
  | arr elements => exact ⟨'[', _, renderChars_arr elements, by decide, by decide, by decide⟩
  | obj entries => exact ⟨'{', _, renderChars_obj entries, by decide, by decide, by decide⟩
  | num n =>
    rw [renderChars_num, intChars]
    by_cases hneg : n < 0
    · exact ⟨'-', _, by rw [if_pos hneg], by decide, by decide, by decide⟩
    · obtain ⟨c, t, hct, hc⟩ := natDigits_cons n.natAbs
      obtain ⟨h1, h2, _⟩ := isDigitChar_ne hc
      exact ⟨c, t, by rw [if_neg hneg, hct], isDigitChar_not_ws hc, h1, h2⟩

theorem joinComma_single (x : List Char) : joinComma [x] = x := rfl

theorem joinComma_cons₂ (x y : List Char) (xs : List (List Char)) :
    joinComma (x :: y :: xs) = x ++ ',' :: joinComma (y :: xs) := rfl

theorem skipWs_cons_not_ws {c : Char} {cs : List Char} (h : isJsonWs c = false) :
    skipWs (c :: cs) = c :: cs := by
  rw [skipWs, h]
  simp

theorem joinComma_render_head (e : JsonLikeValue) (es : List JsonLikeValue) :
    ∃ c t, joinComma ((e :: es).map renderChars) = c :: t
      ∧ isJsonWs c = false ∧ c ≠ ']' ∧ c ≠ '}' := by
  obtain ⟨c, t, hre, hws, hbr, hbc⟩ := renderChars_head e
  cases es with
  | nil => exact ⟨c, t, by rw [List.map_cons, List.map_nil, joinComma_single, hre], hws, hbr, hbc⟩
  | cons y ys =>
    refine ⟨c, t ++ ',' :: joinComma ((y :: ys).map renderChars), ?_, hws, hbr, hbc⟩
    rw [List.map_cons, List.map_cons, joinComma_cons₂, ← List.map_cons, hre, List.cons_append]

theorem delim_cons (c : Char) (t : List Char) (h : isDigitChar c = false) :
    ∀ c', (c :: t).head? = some c' → isDigitChar c' = false := by
  intro c' hc'
  rw [List.head?_cons, Option.some.injEq] at hc'
  rw [← hc']
  exact h

/-- The array branch of the parser reduces to the element loop when the
content does not open with the closing bracket. -/
theorem parseValue_arr_step (fuel : Nat) (inner : List Char) (c0 : Char) (t0 : List Char)
    (hinner : inner = c0 :: t0) (hws : isJsonWs c0 = false) (hbr : c0 ≠ ']') :
    parseValue (fuel + 1) ('[' :: inner)
      = (parseArrayItems fuel inner).map fun r => (.arr r.1, r.2) := by
  rw [parseValue, skipWs_cons_not_ws (by decide)]
  simp +decide
  rw [hinner, skipWs_cons_not_ws hws]
  split
  · rename_i rest' heq
    rw [List.cons.injEq] at heq
    exact absurd heq.1 hbr
  · rfl

/-- The object branch of the parser reduces to the member loop when the
content opens with a key's quote. -/
theorem parseValue_obj_step (fuel : Nat) (inner : List Char) (t0 : List Char)
    (hinner : inner = '"' :: t0) :
    parseValue (fuel + 1) ('{' :: inner)
      = (parseObjectItems fuel inner).map fun r => (.obj r.1, r.2) := by
  rw [parseValue, skipWs_cons_not_ws (by decide)]
  simp +decide
  rw [hinner, skipWs_cons_not_ws (by decide)]
  split
  · rename_i rest' heq
    rw [List.cons.injEq] at heq
    exact absurd heq.1 (by decide)
  · rfl

/-- The fall-through branch of the parser: a head character that starts no
other token is parsed as a number. -/
theorem parseValue_num_step (fuel : Nat) (c0 : Char) (t0 : List Char)
    (hws : isJsonWs c0 = false)
    (h1 : c0 ≠ '"') (h2 : c0 ≠ '[') (h3 : c0 ≠ '{') (h4 : c0 ≠ 't') (h5 : c0 ≠ 'f')
    (h6 : c0 ≠ 'n') :
    parseValue (fuel + 1) (c0 :: t0)
      = (parseNumber (c0 :: t0)).map fun r => (.num r.1, r.2) := by
  rw [parseValue, skipWs_cons_not_ws hws]
  simp only [if_neg h1, if_neg h2, if_neg h3, if_neg h4, if_neg h5, if_neg h6]

theorem joinComma_renderEntry_head (kv : String × JsonLikeValue)
    (ms : List (String × JsonLikeValue)) :
    ∃ t, joinComma ((kv :: ms).map fun p => renderString p.1 ++ ':' :: renderChars p.2)
      = '"' :: t := by
  cases ms with
  | nil =>
    rw [List.map_cons, List.map_nil, joinComma_single, renderString, List.cons_append]
    exact ⟨_, rfl⟩
  | cons m ms' =>
    rw [List.map_cons, List.map_cons, joinComma_cons₂, renderString, List.cons_append,
      List.cons_append]
    exact ⟨_, rfl⟩

theorem joinComma_nil : joinComma [] = [] := rfl

mutual

/-- The codec round trip on values: parsing a rendered strict value, given
enough fuel and a remainder that cannot extend a numeral, consumes exactly
the rendered text and returns the value. -/
theorem rt_val : ∀ (v : JsonLikeValue) (fuel : Nat) (rest : List Char),
    noAbsent v = true → (renderChars v).length < fuel →
    (∀ c, rest.head? = some c → isDigitChar c = false) →
    parseValue fuel (renderChars v ++ rest) = some (v, rest)
  | .absent, _, _, hna, _, _ => by simp [noAbsent] at hna
  | .null, fuel, rest, _, hf, _ => by
    cases fuel with
    | zero => omega
    | succ f =>
      rw [renderChars_null, show (['n', 'u', 'l', 'l'] : List Char) ++ rest
        = 'n' :: 'u' :: 'l' :: 'l' :: rest from rfl, parseValue,
        skipWs_cons_not_ws (by decide)]
      simp +decide
  | .bool true, fuel, rest, _, hf, _ => by
    cases fuel with
    | zero => omega
    | succ f =>
      rw [renderChars_true, show (['t', 'r', 'u', 'e'] : List Char) ++ rest
        = 't' :: 'r' :: 'u' :: 'e' :: rest from rfl, parseValue,
        skipWs_cons_not_ws (by decide)]
      simp +decide
  | .bool false, fuel, rest, _, hf, _ => by
    cases fuel with
    | zero => omega
    | succ f =>
      rw [renderChars_false, show (['f', 'a', 'l', 's', 'e'] : List Char) ++ rest
        = 'f' :: 'a' :: 'l' :: 's' :: 'e' :: rest from rfl, parseValue,
        skipWs_cons_not_ws (by decide)]
      simp +decide
  | .str s, fuel, rest, _, hf, _ => by
    cases fuel with
    | zero => omega
    | succ f =>
      rw [renderChars_str, renderString, List.cons_append, List.append_assoc,
        show (['"'] : List Char) ++ rest = '"' :: rest from rfl, parseValue,
        skipWs_cons_not_ws (by decide)]
      simp +decide [parseStringBody_flatMap, string_mk_data]
  | .num n, fuel, rest, _, hf, hrest => by
    cases fuel with
    | zero => omega
    | succ f =>
      rw [renderChars_num]
      by_cases hneg : n < 0
      · rw [show intChars n ++ rest = '-' :: (natDigits n.natAbs [] ++ rest) from by
          rw [intChars, if_pos hneg, List.cons_append]]
        rw [parseValue_num_step f '-' _ (by decide) (by decide) (by decide) (by decide)
          (by decide) (by decide) (by decide)]
        rw [show ('-' :: (natDigits n.natAbs [] ++ rest) : List Char)
          = intChars n ++ rest from by rw [intChars, if_pos hneg, List.cons_append]]
        rw [parseNumber_intChars n rest hrest]
        rfl
      · obtain ⟨c, t, hct, hc⟩ := natDigits_cons n.natAbs
        obtain ⟨_, _, _, hq, hbk, hbc, ht', hf', hn'⟩ := isDigitChar_ne hc
        rw [show intChars n ++ rest = c :: (t ++ rest) from by
          rw [intChars, if_neg hneg, hct, List.cons_append]]
        rw [parseValue_num_step f c _ (isDigitChar_not_ws hc) hq hbk hbc ht' hf' hn']
        rw [show (c :: (t ++ rest) : List Char) = intChars n ++ rest from by
          rw [intChars, if_neg hneg, hct, List.cons_append]]
        rw [parseNumber_intChars n rest hrest]
        rfl
  | .arr [], fuel, rest, _, hf, _ => by
    cases fuel with
    | zero => omega
    | succ f =>
      rw [renderChars_arr, List.map_nil, joinComma_nil, List.nil_append,
        show (['[', ']'] : List Char) ++ rest = '[' :: ']' :: rest from rfl, parseValue,
        skipWs_cons_not_ws (by decide)]
      simp +decide [skipWs_cons_not_ws (show isJsonWs ']' = false from by decide)]
  | .arr (e :: es), fuel, rest, hna, hf, _ => by
    have hstrict : ∀ x ∈ e :: es, noAbsent x = true := (noAbsent_arr_iff _).mp hna
    cases fuel with
    | zero => omega
    | succ f =>
      have hItems : (joinComma ((e :: es).map renderChars)).length + 1 < f := by
        rw [renderChars_arr] at hf
        simp only [List.length_cons, List.length_append] at hf
        omega
      obtain ⟨c0, t0, hjc, hws, hbr, _⟩ := joinComma_render_head e es
      rw [renderChars_arr, List.cons_append, List.append_assoc,
        show ([']'] : List Char) ++ rest = ']' :: rest from rfl,
        parseValue_arr_step f _ c0 (t0 ++ ']' :: rest)
          (by rw [hjc, List.cons_append]) hws hbr,
        rt_arr_items e es f rest hstrict hItems]
      rfl
  | .obj [], fuel, rest, _, hf, _ => by
    cases fuel with
    | zero => omega
    | succ f =>
      rw [renderChars_obj, List.filterMap_nil, joinComma_nil, List.nil_append,
        show (['{', '}'] : List Char) ++ rest = '{' :: '}' :: rest from rfl, parseValue,
        skipWs_cons_not_ws (by decide)]
      simp +decide [skipWs_cons_not_ws (show isJsonWs '}' = false from by decide)]
  | .obj (kv :: ms), fuel, rest, hna, hf, _ => by
    have hstrict : ∀ x ∈ kv :: ms, noAbsent x.2 = true := (noAbsent_obj_iff _).mp hna
    have habs : ∀ x ∈ kv :: ms, JsonLikeValue.isAbsent x.2 = false :=
      fun x hx => isAbsent_eq_false_of_noAbsent _ (hstrict x hx)
    cases fuel with
    | zero => omega
    | succ f =>
      have hobjeq := renderChars_obj_strict (kv :: ms) habs
      have hItems : (joinComma ((kv :: ms).map fun p =>
          renderString p.1 ++ ':' :: renderChars p.2)).length + 1 < f := by
        rw [hobjeq] at hf
        simp only [List.length_cons, List.length_append] at hf
        omega
      obtain ⟨t0, hjh⟩ := joinComma_renderEntry_head kv ms
      rw [hobjeq, List.cons_append, List.append_assoc,
        show (['}'] : List Char) ++ rest = '}' :: rest from rfl,
        parseValue_obj_step f _ (t0 ++ '}' :: rest) (by rw [hjh, List.cons_append]),
        rt_obj_items kv ms f rest hstrict hItems]
      rfl

/-- The codec round trip on nonempty rendered element lists. -/
theorem rt_arr_items : ∀ (e : JsonLikeValue) (es : List JsonLikeValue) (fuel : Nat)
    (rest : List Char),
    (∀ x ∈ e :: es, noAbsent x = true) →
    (joinComma ((e :: es).map renderChars)).length + 1 < fuel →
    parseArrayItems fuel (joinComma ((e :: es).map renderChars) ++ ']' :: rest)
      = some (e :: es, rest)
  | e, [], fuel, rest, hstrict, hfuel => by
    cases fuel with
    | zero => omega
    | succ f =>
      rw [List.map_cons, List.map_nil, joinComma_single] at hfuel ⊢
      have hfe : (renderChars e).length < f := by omega
      rw [parseArrayItems,
        rt_val e f (']' :: rest) (hstrict e (by simp)) hfe (delim_cons ']' rest (by decide))]
      simp [skipWs_cons_not_ws (show isJsonWs ']' = false from by decide)]
  | e, x :: xs, fuel, rest, hstrict, hfuel => by
    cases fuel with
    | zero => omega
    | succ f =>
      rw [List.map_cons, List.map_cons, joinComma_cons₂, ← List.map_cons] at hfuel ⊢
      have hfe : (renderChars e).length < f := by
        simp only [List.length_append, List.length_cons] at hfuel
        omega
      have hfx : (joinComma ((x :: xs).map renderChars)).length + 1 < f := by
        simp only [List.length_append, List.length_cons] at hfuel
        omega
      obtain ⟨c0, t0, hjc, hws, _, _⟩ := joinComma_render_head x xs
      have hskip : skipWs (joinComma ((x :: xs).map renderChars) ++ ']' :: rest)
          = joinComma ((x :: xs).map renderChars) ++ ']' :: rest := by
        rw [hjc, List.cons_append, skipWs_cons_not_ws hws]
      rw [List.append_assoc, List.cons_append, parseArrayItems,
        rt_val e f (',' :: (joinComma ((x :: xs).map renderChars) ++ ']' :: rest))
          (hstrict e (by simp)) hfe (delim_cons ',' _ (by decide))]
      simp only [skipWs_cons_not_ws (show isJsonWs ',' = false from by decide), hskip,
        rt_arr_items x xs f rest (fun y hy => hstrict y (by simp [hy])) hfx,
        Option.map_some']

/-- The codec round trip on nonempty rendered member lists. -/
theorem rt_obj_items : ∀ (kv : String × JsonLikeValue)
    (ms : List (String × JsonLikeValue)) (fuel : Nat) (rest : List Char),
    (∀ x ∈ kv :: ms, noAbsent x.2 = true) →
    (joinComma ((kv :: ms).map fun p =>
      renderString p.1 ++ ':' :: renderChars p.2)).length + 1 < fuel →
    parseObjectItems fuel (joinComma ((kv :: ms).map fun p =>
        renderString p.1 ++ ':' :: renderChars p.2) ++ '}' :: rest)
      = some (kv :: ms, rest)
  | (k, v), [], fuel, rest, hstrict, hfuel => by
    cases fuel with
    | zero => omega
    | succ f =>
      rw [List.map_cons, List.map_nil, joinComma_single] at hfuel ⊢
      have hfv : (renderChars v).length < f := by
        rw [renderString] at hfuel
        simp only [List.length_append, List.length_cons] at hfuel
        omega
      obtain ⟨c0, t0, hrh, hws, _, _⟩ := renderChars_head v
      have hskipv : skipWs (renderChars v ++ '}' :: rest)
          = renderChars v ++ '}' :: rest := by
        rw [hrh, List.cons_append, skipWs_cons_not_ws hws]
      rw [renderString]
      rw [show (('"' :: (k.data.flatMap escapeChar ++ ['"'])) ++ ':' :: renderChars v)
          ++ '}' :: rest
        = '"' :: (k.data.flatMap escapeChar
            ++ '"' :: (':' :: (renderChars v ++ '}' :: rest))) from by
          simp [List.cons_append, List.append_assoc]]
      rw [parseObjectItems, skipWs_cons_not_ws (by decide)]
      simp only [parseStringBody_flatMap, Option.map_some',
        skipWs_cons_not_ws (show isJsonWs ':' = false from by decide), hskipv,
        rt_val v f ('}' :: rest) (hstrict (k, v) (by simp)) hfv
          (delim_cons '}' rest (by decide)),
        skipWs_cons_not_ws (show isJsonWs '}' = false from by decide), string_mk_data]
  | (k, v), m :: ms', fuel, rest, hstrict, hfuel => by
    cases fuel with
    | zero => omega
    | succ f =>
      have hfold : (renderString m.1 ++ ':' :: renderChars m.2)
          :: List.map (fun p => renderString p.1 ++ ':' :: renderChars p.2) ms'
          = List.map (fun p => renderString p.1 ++ ':' :: renderChars p.2) (m :: ms') := by
        rw [List.map_cons]
      rw [List.map_cons, List.map_cons, joinComma_cons₂, hfold] at hfuel ⊢
      have hfv : (renderChars v).length < f := by
        rw [renderString] at hfuel
        simp only [List.length_append, List.length_cons] at hfuel
        omega
      have hfx : (joinComma ((m :: ms').map fun p =>
          renderString p.1 ++ ':' :: renderChars p.2)).length + 1 < f := by
        simp only [List.length_append, List.length_cons] at hfuel
        omega
      obtain ⟨c0, t0, hrh, hws, _, _⟩ := renderChars_head v
      obtain ⟨t1, hjh⟩ := joinComma_renderEntry_head m ms'
      have hskipv : skipWs (renderChars v
          ++ ',' :: (joinComma ((m :: ms').map fun p =>
            renderString p.1 ++ ':' :: renderChars p.2) ++ '}' :: rest))
          = renderChars v ++ ',' :: (joinComma ((m :: ms').map fun p =>
            renderString p.1 ++ ':' :: renderChars p.2) ++ '}' :: rest) := by
        rw [hrh, List.cons_append, skipWs_cons_not_ws hws]
      have hskipm : skipWs (joinComma ((m :: ms').map fun p =>
            renderString p.1 ++ ':' :: renderChars p.2) ++ '}' :: rest)
          = joinComma ((m :: ms').map fun p =>
            renderString p.1 ++ ':' :: renderChars p.2) ++ '}' :: rest := by
        rw [hjh, List.cons_append, skipWs_cons_not_ws (by decide)]
      rw [renderString]
      rw [show ((('"' :: (k.data.flatMap escapeChar ++ ['"'])) ++ ':' :: renderChars v)
          ++ ',' :: joinComma ((m :: ms').map fun p =>
            renderString p.1 ++ ':' :: renderChars p.2)) ++ '}' :: rest
        = '"' :: (k.data.flatMap escapeChar
            ++ '"' :: (':' :: (renderChars v
              ++ ',' :: (joinComma ((m :: ms').map fun p =>
                renderString p.1 ++ ':' :: renderChars p.2) ++ '}' :: rest)))) from by
          simp [List.cons_append, List.append_assoc]]
      rw [parseObjectItems, skipWs_cons_not_ws (by decide)]
      simp only [parseStringBody_flatMap, Option.map_some',
        skipWs_cons_not_ws (show isJsonWs ':' = false from by decide),
        skipWs_cons_not_ws (show isJsonWs ',' = false from by decide), hskipv, hskipm,
        rt_val v f (',' :: (joinComma ((m :: ms').map fun p =>
            renderString p.1 ++ ':' :: renderChars p.2) ++ '}' :: rest))
          (hstrict (k, v) (by simp)) hfv (delim_cons ',' _ (by decide)),
        rt_obj_items m ms' f rest (fun y hy => hstrict y (by simp [hy])) hfx,
        string_mk_data]

end

/-- JSON.parse inverts the renderer on strict values: the fuel JSONparse
supplies always suffices, and nothing is left over after the value. -/
theorem JSONparse_render (v : JsonLikeValue) (h : noAbsent v = true) :
    JSONparse (String.mk (renderChars v)) = .ok v := by
  have hrt : parseValue (2 * (String.mk (renderChars v)).length + 2)
      (renderChars v ++ []) = some (v, []) := by
    refine rt_val v _ [] h ?_ ?_
    · rw [show (String.mk (renderChars v)).length = (renderChars v).length from rfl]
      omega
    · intro c hc
      simp at hc
  rw [List.append_nil] at hrt
  rw [JSONparse, show (String.mk (renderChars v)).data = renderChars v from rfl, hrt]
  rfl

/-- stableStringify renders the canonicalized value: the absent fallback of
createCanonicalJsonString is never taken, because canonicalization never
returns the absent marker. -/
theorem stableStringify_eq_render (v : JsonLikeValue) :
    stableStringify v = String.mk (renderChars (canonicalize v none)) := by
  have hna := noAbsent_canonicalize none v
  have habs := isAbsent_eq_false_of_noAbsent _ hna
  rw [stableStringify, createCanonicalJsonString, JSONstringify, habs]
  rfl

/-- C9: safeParse never raises: it is a total function into a tagged result,
which is the success case carrying the data exactly when parse succeeds on
the text; every failure payload is a SyntaxError, and in particular a
non-SyntaxError failure of the underlying codec is wrapped into a fresh
SyntaxError, so the failure-case error type is uniform. -/
theorem safeParse_spec (s : String) :
    (∀ d, safeParse s = .success d ↔ parse s = .ok d)
      ∧ (∀ e, safeParse s = .failure e → e.isSyntaxError = true)
      ∧ (∀ m, parse s = .error (.otherError m) →
          safeParse s = .failure (.syntaxError ("Unknown parsing error: " ++ m))) := by
  cases hp : parse s with
  | ok d' =>
    refine ⟨fun d => by simp [safeParse, hp], fun e he => ?_, fun m hm => ?_⟩
    · simp [safeParse, hp] at he
    · simp at hm
  | error e =>
    cases e with
    | syntaxError m' =>
      refine ⟨fun d => by simp [safeParse, hp], fun e' he' => ?_, fun m hm => ?_⟩
      · simp [safeParse, hp] at he'
        subst he'
        rfl
      · simp at hm
    | otherError m' =>
      refine ⟨fun d => by simp [safeParse, hp], fun e' he' => ?_, fun m hm => ?_⟩
      · simp [safeParse, hp] at he'
        subst he'
        rfl
      · simp at hm
        subst hm
        simp [safeParse, hp]

/-- Witness for C9 at concrete inputs: the text 1 parses, so safeParse tags
it success with the parsed number; the text x does not parse, and the
failure payload safeParse returns for it is a SyntaxError. -/
theorem safeParse_spec_witness :
    safeParse (String.mk ['1']) = .success (.num 1)
      ∧ JsError.isSyntaxError (.syntaxError "Unexpected token in JSON") = true :=
  ⟨((safeParse_spec (String.mk ['1'])).1 (.num 1)).mpr (by
      simp +decide [parse, JSONparse, parseValue, parseNumber, parseDigits, digitsVal,
        skipWs, isJsonWs, isDigitChar, String.length]),
   (safeParse_spec (String.mk ['x'])).2.1 (.syntaxError "Unexpected token in JSON") (by
      simp +decide [safeParse, parse, JSONparse, parseValue, parseNumber, parseDigits,
        skipWs, isJsonWs, isDigitChar, String.length])⟩

/-- C10: canonical strings round-trip through the codec: for every
permissive value, parsing its canonical JSON string succeeds (no parse
error) and the parsed value is exactly the canonicalization of the value. -/
theorem parse_createCanonicalJsonString_roundtrip (v : JsonLikeValue) :
    parse (createCanonicalJsonString v (fun x => canonicalize x none))
      = .ok (canonicalize v none) := by
  rw [parse, show createCanonicalJsonString v (fun x => canonicalize x none)
      = stableStringify v from rfl, stableStringify_eq_render]
  exact JSONparse_render (canonicalize v none) (noAbsent_canonicalize none v)

end JsonUtils
